import Mathlib

/-
  Verification of the distortion-robustness evaluation harness.

  The source program (code.py) evaluates how robust an image classifier is
  to spatial perturbation: for each labeled image it crops a randomly
  distorted sub-rectangle, measures the IoU between the original and
  distorted regions, classifies the crop, and tallies correct/incorrect
  predictions into buckets keyed by the IoU range.

  Numeric model: Python floats are modelled as rationals (ℚ); Python's
  `int(...)` truncation toward zero is `pyint`; pixel coordinates and image
  sizes are integers (ℤ). Randomness is injected: the sampled signed
  displacements `dx`, `dy` are explicit parameters constrained by the same
  bounds the sampler guarantees. Python dicts keyed by bucket are
  association lists `List (ℕ × ℕ)` preserving insertion order; `d[k] += v`
  is `dictIncr`, which fails (KeyError) when the key is absent.
  Exceptions are modelled with `Except`.
-/

/-- Axis-aligned rectangle, the shallow embedding of `bbox.BBox2D` in XYXY
mode as the source uses it: four coordinates, accessed as `.x1 .y1 .x2 .y2`. -/
structure Rect where
  x1 : ℚ
  y1 : ℚ
  x2 : ℚ
  y2 : ℚ
deriving DecidableEq, Repr

/-- Well-formedness from the spec data model: x1 ≤ x2 and y1 ≤ y2. -/
def Rect.Wf (r : Rect) : Prop := r.x1 ≤ r.x2 ∧ r.y1 ≤ r.y2

/-- Area of a rectangle, `(x2 - x1) * (y2 - y1)` as in `iou`'s code. -/
def Rect.area (r : Rect) : ℚ := (r.x2 - r.x1) * (r.y2 - r.y1)

/-- Embedding of `iou(b1, b2)` (code.py lines 55-64): intersection over
union with the `denominator != 0` guard returning 0. -/
def iou (b1 b2 : Rect) : ℚ :=
  let x_a := max b1.x1 b2.x1
  let y_a := max b1.y1 b2.y1
  let x_b := min b1.x2 b2.x2
  let y_b := min b1.y2 b2.y2
  let inter_area := max 0 (x_b - x_a) * max 0 (y_b - y_a)
  let box_a_area := (b1.x2 - b1.x1) * (b1.y2 - b1.y1)
  let box_b_area := (b2.x2 - b2.x1) * (b2.y2 - b2.y1)
  let denominator := box_a_area + box_b_area - inter_area
  if denominator ≠ 0 then inter_area / denominator else 0

/-- The denominator computed inside `iou`: area(a) + area(b) − intersection. -/
def iouDenom (b1 b2 : Rect) : ℚ :=
  (b1.x2 - b1.x1) * (b1.y2 - b1.y1) + (b2.x2 - b2.x1) * (b2.y2 - b2.y1) -
    max 0 (min b1.x2 b2.x2 - max b1.x1 b2.x1) * max 0 (min b1.y2 b2.y2 - max b1.y1 b2.y1)

lemma iou_eq (b1 b2 : Rect) :
    iou b1 b2 =
      if iouDenom b1 b2 ≠ 0 then
        max 0 (min b1.x2 b2.x2 - max b1.x1 b2.x1) *
          max 0 (min b1.y2 b2.y2 - max b1.y1 b2.y1) / iouDenom b1 b2
      else 0 := rfl

lemma inter_nonneg (b1 b2 : Rect) :
    0 ≤ max 0 (min b1.x2 b2.x2 - max b1.x1 b2.x1) *
        max 0 (min b1.y2 b2.y2 - max b1.y1 b2.y1) :=
  mul_nonneg (le_max_left _ _) (le_max_left _ _)

lemma inter_le_area_left (b1 b2 : Rect) (h1 : b1.Wf) :
    max 0 (min b1.x2 b2.x2 - max b1.x1 b2.x1) *
      max 0 (min b1.y2 b2.y2 - max b1.y1 b2.y1) ≤ b1.area := by
  obtain ⟨hx, hy⟩ := h1
  have hfx : max 0 (min b1.x2 b2.x2 - max b1.x1 b2.x1) ≤ b1.x2 - b1.x1 := by
    apply max_le
    · linarith
    · have h1 : min b1.x2 b2.x2 ≤ b1.x2 := min_le_left _ _
      have h2 : b1.x1 ≤ max b1.x1 b2.x1 := le_max_left _ _
      linarith
  have hfy : max 0 (min b1.y2 b2.y2 - max b1.y1 b2.y1) ≤ b1.y2 - b1.y1 := by
    apply max_le
    · linarith
    · have h1 : min b1.y2 b2.y2 ≤ b1.y2 := min_le_left _ _
      have h2 : b1.y1 ≤ max b1.y1 b2.y1 := le_max_left _ _
      linarith
  have := mul_le_mul hfx hfy (le_max_left _ _) (by linarith)
  simpa [Rect.area] using this

lemma inter_le_area_right (b1 b2 : Rect) (h2 : b2.Wf) :
    max 0 (min b1.x2 b2.x2 - max b1.x1 b2.x1) *
      max 0 (min b1.y2 b2.y2 - max b1.y1 b2.y1) ≤ b2.area := by
  obtain ⟨hx, hy⟩ := h2
  have hfx : max 0 (min b1.x2 b2.x2 - max b1.x1 b2.x1) ≤ b2.x2 - b2.x1 := by
    apply max_le
    · linarith
    · have h1 : min b1.x2 b2.x2 ≤ b2.x2 := min_le_right _ _
      have h2 : b2.x1 ≤ max b1.x1 b2.x1 := le_max_right _ _
      linarith
  have hfy : max 0 (min b1.y2 b2.y2 - max b1.y1 b2.y1) ≤ b2.y2 - b2.y1 := by
    apply max_le
    · linarith
    · have h1 : min b1.y2 b2.y2 ≤ b2.y2 := min_le_right _ _
      have h2 : b2.y1 ≤ max b1.y1 b2.y1 := le_max_right _ _
      linarith
  have := mul_le_mul hfx hfy (le_max_left _ _) (by linarith)
  simpa [Rect.area] using this

lemma iou_comm (b1 b2 : Rect) : iou b1 b2 = iou b2 b1 := by
  rw [iou_eq, iou_eq]
  have hI : max 0 (min b1.x2 b2.x2 - max b1.x1 b2.x1) *
      max 0 (min b1.y2 b2.y2 - max b1.y1 b2.y1) =
      max 0 (min b2.x2 b1.x2 - max b2.x1 b1.x1) *
      max 0 (min b2.y2 b1.y2 - max b2.y1 b1.y1) := by
    rw [min_comm b1.x2, max_comm b1.x1, min_comm b1.y2, max_comm b1.y1]
  have hD : iouDenom b1 b2 = iouDenom b2 b1 := by
    unfold iouDenom
    rw [min_comm b1.x2, max_comm b1.x1, min_comm b1.y2, max_comm b1.y1]
    ring
  rw [hI, hD]

lemma iou_nonneg (b1 b2 : Rect) (h1 : b1.Wf) (h2 : b2.Wf) : 0 ≤ iou b1 b2 := by
  rw [iou_eq]
  split_ifs with hd
  · have hI := inter_nonneg b1 b2
    have hIA := inter_le_area_left b1 b2 h1
    have hIB := inter_le_area_right b1 b2 h2
    have hA : 0 ≤ b1.area := by
      obtain ⟨hx, hy⟩ := h1
      exact mul_nonneg (by linarith) (by linarith)
    have hdpos : 0 < iouDenom b1 b2 := by
      rcases lt_or_eq_of_le (show (0:ℚ) ≤ iouDenom b1 b2 by
        unfold iouDenom at *
        unfold Rect.area at hIA hIB hA
        linarith) with h | h
      · exact h
      · exact absurd h.symm hd
    exact div_nonneg hI (le_of_lt hdpos)
  · exact le_refl 0

lemma iou_le_one (b1 b2 : Rect) (h1 : b1.Wf) (h2 : b2.Wf) : iou b1 b2 ≤ 1 := by
  rw [iou_eq]
  split_ifs with hd
  · have hI := inter_nonneg b1 b2
    have hIA := inter_le_area_left b1 b2 h1
    have hIB := inter_le_area_right b1 b2 h2
    have hA : 0 ≤ b1.area := by
      obtain ⟨hx, hy⟩ := h1
      exact mul_nonneg (by linarith) (by linarith)
    have hdpos : 0 < iouDenom b1 b2 := by
      rcases lt_or_eq_of_le (show (0:ℚ) ≤ iouDenom b1 b2 by
        unfold iouDenom at *
        unfold Rect.area at hIA hIB hA
        linarith) with h | h
      · exact h
      · exact absurd h.symm hd
    rw [div_le_one hdpos]
    unfold iouDenom at *
    unfold Rect.area at hIA hIB
    linarith
  · exact zero_le_one

lemma iou_self (a : Rect) (hwf : a.Wf) (hpos : 0 < a.area) : iou a a = 1 := by
  obtain ⟨hx, hy⟩ := hwf
  rw [iou_eq]
  have hxe : min a.x2 a.x2 - max a.x1 a.x1 = a.x2 - a.x1 := by
    rw [min_self, max_self]
  have hye : min a.y2 a.y2 - max a.y1 a.y1 = a.y2 - a.y1 := by
    rw [min_self, max_self]
  have hI : max 0 (min a.x2 a.x2 - max a.x1 a.x1) *
      max 0 (min a.y2 a.y2 - max a.y1 a.y1) = a.area := by
    rw [hxe, hye, max_eq_right (by linarith), max_eq_right (by linarith)]
    rfl
  have hD : iouDenom a a = a.area := by
    unfold iouDenom
    rw [hxe, hye, max_eq_right (by linarith : (0:ℚ) ≤ a.x2 - a.x1),
      max_eq_right (by linarith : (0:ℚ) ≤ a.y2 - a.y1)]
    unfold Rect.area
    ring
  rw [hI, hD]
  rw [if_pos (by exact ne_of_gt hpos)]
  exact div_self (ne_of_gt hpos)

lemma iou_zero_area (a b : Rect) (h : a.area = 0) : iou a b = 0 := by
  have hI : max 0 (min a.x2 b.x2 - max a.x1 b.x1) *
      max 0 (min a.y2 b.y2 - max a.y1 b.y1) = 0 := by
    rcases mul_eq_zero.mp h with hw | hh
    · have h1 : min a.x2 b.x2 - max a.x1 b.x1 ≤ 0 := by
        have e1 : min a.x2 b.x2 ≤ a.x2 := min_le_left _ _
        have e2 : a.x1 ≤ max a.x1 b.x1 := le_max_left _ _
        linarith [sub_eq_zero.mp hw ▸ (le_refl a.x2)]
      rw [max_eq_left h1, zero_mul]
    · have h1 : min a.y2 b.y2 - max a.y1 b.y1 ≤ 0 := by
        have e1 : min a.y2 b.y2 ≤ a.y2 := min_le_left _ _
        have e2 : a.y1 ≤ max a.y1 b.y1 := le_max_left _ _
        linarith [sub_eq_zero.mp hh ▸ (le_refl a.y2)]
      rw [max_eq_left h1, mul_zero]
  rw [iou_eq, hI]
  split_ifs with hd
  · exact zero_div _
  · rfl

/-- Claim C3: for rectangles a, b with x1≤x2 and y1≤y2, `iou` is symmetric,
`iou(a,a) = 1` whenever area(a) > 0, and `iou(a,b)` always lies in [0, 1]. -/
theorem claim_C3 (a b : Rect) (ha : a.Wf) (hb : b.Wf) :
    iou a b = iou b a ∧
    (0 < a.area → iou a a = 1) ∧
    0 ≤ iou a b ∧ iou a b ≤ 1 :=
  ⟨iou_comm a b, fun hpos => iou_self a ha hpos,
   iou_nonneg a b ha hb, iou_le_one a b ha hb⟩

/-- Witness for C3 at concrete rectangles a = (0,0,2,2), b = (1,1,3,3). -/
theorem claim_C3_witness :
    iou ⟨0, 0, 2, 2⟩ ⟨1, 1, 3, 3⟩ = iou ⟨1, 1, 3, 3⟩ ⟨0, 0, 2, 2⟩ ∧
    (0 < Rect.area ⟨0, 0, 2, 2⟩ → iou ⟨0, 0, 2, 2⟩ ⟨0, 0, 2, 2⟩ = 1) ∧
    0 ≤ iou ⟨0, 0, 2, 2⟩ ⟨1, 1, 3, 3⟩ ∧ iou ⟨0, 0, 2, 2⟩ ⟨1, 1, 3, 3⟩ ≤ 1 :=
  claim_C3 ⟨0, 0, 2, 2⟩ ⟨1, 1, 3, 3⟩ ⟨by norm_num, by norm_num⟩ ⟨by norm_num, by norm_num⟩

/-- Claim C4: `iou` is total (never raises, never divides by zero): when the
union area is exactly zero the result is 0 by the explicit guard, and any
rectangle of zero area paired with any rectangle yields 0. -/
theorem claim_C4 (a b : Rect) :
    (iouDenom a b = 0 → iou a b = 0) ∧
    (a.area = 0 → iou a b = 0) := by
  constructor
  · intro hd
    rw [iou_eq, if_neg (by simpa using hd)]
  · exact iou_zero_area a b

/-- Witness for C4 at the degenerate rectangle (5,5,5,5) against (0,0,4,4). -/
theorem claim_C4_witness :
    (iouDenom ⟨5, 5, 5, 5⟩ ⟨5, 5, 5, 5⟩ = 0 → iou ⟨5, 5, 5, 5⟩ ⟨5, 5, 5, 5⟩ = 0) ∧
    (Rect.area ⟨5, 5, 5, 5⟩ = 0 → iou ⟨5, 5, 5, 5⟩ ⟨0, 0, 4, 4⟩ = 0) :=
  ⟨(claim_C4 ⟨5, 5, 5, 5⟩ ⟨5, 5, 5, 5⟩).1, (claim_C4 ⟨5, 5, 5, 5⟩ ⟨0, 0, 4, 4⟩).2⟩

/-- Python `int(...)` on a float value: truncation toward zero. -/
def pyint (q : ℚ) : ℤ := if q < 0 then ⌈q⌉ else ⌊q⌋

lemma pyint_of_nonneg {q : ℚ} (h : 0 ≤ q) : pyint q = ⌊q⌋ := if_neg (not_lt.mpr h)

lemma pyint_nonneg {q : ℚ} (h : 0 ≤ q) : 0 ≤ pyint q := by
  rw [pyint_of_nonneg h]
  exact Int.floor_nonneg.mpr h

lemma pyint_mono {a b : ℚ} (h : a ≤ b) : pyint a ≤ pyint b := by
  unfold pyint
  rcases lt_or_le a 0 with ha | ha <;> rcases lt_or_le b 0 with hb | hb
  · rw [if_pos ha, if_pos hb]
    exact Int.ceil_le_ceil h
  · rw [if_pos ha, if_neg (not_lt.mpr hb)]
    refine le_trans (Int.ceil_le.mpr ?_) (Int.floor_nonneg.mpr hb)
    exact_mod_cast le_of_lt ha
  · exact absurd (lt_of_le_of_lt h hb) (not_lt.mpr ha)
  · rw [if_neg (not_lt.mpr ha), if_neg (not_lt.mpr hb)]
    exact Int.floor_le_floor h

lemma pyint_intCast (n : ℤ) : pyint (n : ℚ) = n := by
  unfold pyint
  split_ifs
  · exact Int.ceil_intCast n
  · exact Int.floor_intCast n

/-- The nine bucket keys, in the order the two dicts are initialized
(code.py lines 106-107). -/
def bucketKeys : List ℕ := [2, 3, 4, 5, 6, 7, 8, 9, 10]

/-- Embedding of the if/elif chain of code.py lines 123-149 that selects
which bucket an iou value falls in. -/
def bucket (q : ℚ) : ℕ :=
  if q < 2/10 then 2
  else if q < 3/10 then 3
  else if q < 4/10 then 4
  else if q < 5/10 then 5
  else if q < 6/10 then 6
  else if q < 7/10 then 7
  else if q < 8/10 then 8
  else if q < 9/10 then 9
  else 10

set_option maxHeartbeats 1600000 in
/-- Claim C2: bucket assignment is total and exclusive with half-open
boundaries: every iou in [0,1] lands in exactly one of the nine buckets,
with iou<0.2 → "2", 0.2≤iou<0.3 → "3", …, 0.8≤iou<0.9 → "9", and
iou≥0.9 → "10"; a boundary value such as 0.3 goes to the bucket above. -/
theorem claim_C2 (q : ℚ) (h0 : 0 ≤ q) (h1 : q ≤ 1) :
    bucket q ∈ bucketKeys ∧
    (bucket q = 2 ↔ q < 2/10) ∧
    (bucket q = 3 ↔ 2/10 ≤ q ∧ q < 3/10) ∧
    (bucket q = 4 ↔ 3/10 ≤ q ∧ q < 4/10) ∧
    (bucket q = 5 ↔ 4/10 ≤ q ∧ q < 5/10) ∧
    (bucket q = 6 ↔ 5/10 ≤ q ∧ q < 6/10) ∧
    (bucket q = 7 ↔ 6/10 ≤ q ∧ q < 7/10) ∧
    (bucket q = 8 ↔ 7/10 ≤ q ∧ q < 8/10) ∧
    (bucket q = 9 ↔ 8/10 ≤ q ∧ q < 9/10) ∧
    (bucket q = 10 ↔ 9/10 ≤ q) := by
  unfold bucket bucketKeys
  split_ifs with h2 h3 h4 h5 h6 h7 h8 h9 <;>
    refine ⟨by decide, ?_, ?_, ?_, ?_, ?_, ?_, ?_, ?_, ?_⟩ <;>
    constructor <;>
    intro hx <;>
    first
      | rfl
      | omega
      | linarith
      | (exact ⟨by linarith, by linarith⟩)
      | (exfalso; linarith)
      | (obtain ⟨hx1, hx2⟩ := hx
         exfalso
         linarith)

/-- Witness for C2 at the boundary value 0.3, which falls in bucket 4. -/
theorem claim_C2_witness :
    bucket (3/10) ∈ bucketKeys ∧ (bucket (3/10) = 4 ↔ 3/10 ≤ (3/10 : ℚ) ∧ (3/10 : ℚ) < 4/10) ∧
    bucket (3/10) = 4 :=
  have h := claim_C2 (3/10) (by norm_num) (by norm_num)
  ⟨h.1, h.2.2.2.1, h.2.2.2.1.mpr ⟨le_refl _, by norm_num⟩⟩

/-- Embedding of `from_yolo_bbox(cx, cy, nw, nh, w, h)` (code.py lines 74-79):
center-form normalized box to absolute XYXY coordinates, lower-clamped at 0
on the left/upper side and upper-clamped at w/h on the right/lower side. -/
def from_yolo_bbox (cx cy nw nh : ℚ) (w h : ℤ) : ℤ × ℤ × ℤ × ℤ :=
  let left := max 0 (pyint ((cx - nw / 2) * w))
  let upper := max 0 (pyint ((cy - nh / 2) * h))
  let right := min w (pyint ((cx + nw / 2) * w))
  let lower := min h (pyint ((cy + nh / 2) * h))
  (left, upper, right, lower)

/-- Claim C9: for normalized (0..1) center-form inputs and nonnegative image
dimensions, `from_yolo_bbox` (the spec's from_normalized_box) is total and
returns coordinates inside [0, w] × [0, h] satisfying x1 ≤ x2 and y1 ≤ y2. -/
theorem claim_C9 (cx cy nw nh : ℚ) (w h : ℤ)
    (hcx0 : 0 ≤ cx) (hcx1 : cx ≤ 1) (hcy0 : 0 ≤ cy) (hcy1 : cy ≤ 1)
    (hnw0 : 0 ≤ nw) (hnw1 : nw ≤ 1) (hnh0 : 0 ≤ nh) (hnh1 : nh ≤ 1)
    (hw : 0 ≤ w) (hh : 0 ≤ h) :
    0 ≤ (from_yolo_bbox cx cy nw nh w h).1 ∧ (from_yolo_bbox cx cy nw nh w h).1 ≤ w ∧
    0 ≤ (from_yolo_bbox cx cy nw nh w h).2.1 ∧ (from_yolo_bbox cx cy nw nh w h).2.1 ≤ h ∧
    0 ≤ (from_yolo_bbox cx cy nw nh w h).2.2.1 ∧ (from_yolo_bbox cx cy nw nh w h).2.2.1 ≤ w ∧
    0 ≤ (from_yolo_bbox cx cy nw nh w h).2.2.2 ∧ (from_yolo_bbox cx cy nw nh w h).2.2.2 ≤ h ∧
    (from_yolo_bbox cx cy nw nh w h).1 ≤ (from_yolo_bbox cx cy nw nh w h).2.2.1 ∧
    (from_yolo_bbox cx cy nw nh w h).2.1 ≤ (from_yolo_bbox cx cy nw nh w h).2.2.2 := by
  have hwQ : (0:ℚ) ≤ (w:ℚ) := by exact_mod_cast hw
  have hhQ : (0:ℚ) ≤ (h:ℚ) := by exact_mod_cast hh
  have hta_le_w : pyint ((cx - nw / 2) * w) ≤ w := by
    have harg : (cx - nw / 2) * w ≤ ((w:ℤ):ℚ) := by
      have : (cx - nw / 2) * w ≤ 1 * w := mul_le_mul_of_nonneg_right (by linarith) hwQ
      linarith
    calc pyint ((cx - nw / 2) * w) ≤ pyint ((w:ℤ):ℚ) := pyint_mono harg
    _ = w := pyint_intCast w
  have htb0 : 0 ≤ pyint ((cx + nw / 2) * w) :=
    pyint_nonneg (mul_nonneg (by linarith) hwQ)
  have htab : pyint ((cx - nw / 2) * w) ≤ pyint ((cx + nw / 2) * w) :=
    pyint_mono (mul_le_mul_of_nonneg_right (by linarith) hwQ)
  have htc_le_h : pyint ((cy - nh / 2) * h) ≤ h := by
    have harg : (cy - nh / 2) * h ≤ ((h:ℤ):ℚ) := by
      have : (cy - nh / 2) * h ≤ 1 * h := mul_le_mul_of_nonneg_right (by linarith) hhQ
      linarith
    calc pyint ((cy - nh / 2) * h) ≤ pyint ((h:ℤ):ℚ) := pyint_mono harg
    _ = h := pyint_intCast h
  have htd0 : 0 ≤ pyint ((cy + nh / 2) * h) :=
    pyint_nonneg (mul_nonneg (by linarith) hhQ)
  have htcd : pyint ((cy - nh / 2) * h) ≤ pyint ((cy + nh / 2) * h) :=
    pyint_mono (mul_le_mul_of_nonneg_right (by linarith) hhQ)
  unfold from_yolo_bbox
  refine ⟨le_max_left _ _, max_le hw hta_le_w,
    le_max_left _ _, max_le hh htc_le_h,
    le_min hw htb0, min_le_left _ _,
    le_min hh htd0, min_le_left _ _,
    max_le (le_min hw htb0) (le_min hta_le_w htab),
    max_le (le_min hh htd0) (le_min htc_le_h htcd)⟩

/-- Witness for C9 at a box centered at (0.9, 0.5) of normalized size 0.4 × 0.4
in a 100 × 80 image; the box sticks out of the right edge and is truncated. -/
theorem claim_C9_witness :
    0 ≤ (from_yolo_bbox (9/10) (5/10) (4/10) (4/10) 100 80).1 ∧
    (from_yolo_bbox (9/10) (5/10) (4/10) (4/10) 100 80).1 ≤ 100 ∧
    0 ≤ (from_yolo_bbox (9/10) (5/10) (4/10) (4/10) 100 80).2.1 ∧
    (from_yolo_bbox (9/10) (5/10) (4/10) (4/10) 100 80).2.1 ≤ 80 ∧
    0 ≤ (from_yolo_bbox (9/10) (5/10) (4/10) (4/10) 100 80).2.2.1 ∧
    (from_yolo_bbox (9/10) (5/10) (4/10) (4/10) 100 80).2.2.1 ≤ 100 ∧
    0 ≤ (from_yolo_bbox (9/10) (5/10) (4/10) (4/10) 100 80).2.2.2 ∧
    (from_yolo_bbox (9/10) (5/10) (4/10) (4/10) 100 80).2.2.2 ≤ 80 ∧
    (from_yolo_bbox (9/10) (5/10) (4/10) (4/10) 100 80).1 ≤
      (from_yolo_bbox (9/10) (5/10) (4/10) (4/10) 100 80).2.2.1 ∧
    (from_yolo_bbox (9/10) (5/10) (4/10) (4/10) 100 80).2.1 ≤
      (from_yolo_bbox (9/10) (5/10) (4/10) (4/10) 100 80).2.2.2 :=
  claim_C9 (9/10) (5/10) (4/10) (4/10) 100 80
    (by norm_num) (by norm_num) (by norm_num) (by norm_num)
    (by norm_num) (by norm_num) (by norm_num) (by norm_num)
    (by norm_num) (by norm_num)

/-- Embedding of `distort(x1, y1, x2, y2)` (code.py lines 81-94) with the
randomness injected: `dx`, `dy` are the already-signed sampled displacements
(`random.choice([-1,1]) * random.uniform(0, 0.6*dimension)`). The clamps use
`w = x2 - x1` and `h = y2 - y1`, the box's own width/height. -/
def distort (x1 y1 x2 y2 dx dy : ℚ) : ℤ × ℤ × ℤ × ℤ :=
  let w := x2 - x1
  let h := y2 - y1
  let x1_distorted := pyint (max 0 (x1 + dx))
  let y1_distorted := pyint (max 0 (y1 + dy))
  let x2_distorted := pyint (min w (x2 + dx))
  let y2_distorted := pyint (min h (y2 + dy))
  (x1_distorted, y1_distorted, x2_distorted, y2_distorted)

/-- Claim C5: for displacements within the sampler's bounds
(|dx| ≤ 0.6·(x2−x1), |dy| ≤ 0.6·(y2−y1)), `distort` returns exactly
(int(max(0,x1+dx)), int(max(0,y1+dy)), int(min(x2−x1, x2+dx)),
int(min(y2−y1, y2+dy))): the upper clamp bound is the pre-distortion box's
own width/height, not the image's dimensions. -/
theorem claim_C5 (x1 y1 x2 y2 dx dy : ℚ)
    (hdx : |dx| ≤ 6/10 * (x2 - x1)) (hdy : |dy| ≤ 6/10 * (y2 - y1)) :
    distort x1 y1 x2 y2 dx dy =
      (pyint (max 0 (x1 + dx)), pyint (max 0 (y1 + dy)),
       pyint (min (x2 - x1) (x2 + dx)), pyint (min (y2 - y1) (y2 + dy))) := rfl

/-- Witness for C5 on the rectangle (0,0,10,10) with dx = 3, dy = −4. -/
theorem claim_C5_witness :
    |(3:ℚ)| ≤ 6/10 * ((10:ℚ) - 0) ∧ |(-4:ℚ)| ≤ 6/10 * ((10:ℚ) - 0) ∧
    distort 0 0 10 10 3 (-4) =
      (pyint (max 0 ((0:ℚ) + 3)), pyint (max 0 ((0:ℚ) + (-4))),
       pyint (min ((10:ℚ) - 0) (10 + 3)), pyint (min ((10:ℚ) - 0) (10 + (-4)))) :=
  ⟨by norm_num, by norm_num,
   claim_C5 0 0 10 10 3 (-4) (by norm_num) (by norm_num)⟩

/-- `img.crop((x1, y1, x2, y2))` at the interface boundary: the resulting
image's size is (x2 − x1, y2 − y1). -/
def crop (x1 y1 x2 y2 : ℤ) : ℤ × ℤ := (x2 - x1, y2 - y1)

/-- Embedding of `distort_image(img)` (code.py lines 96-103) on an image of
size (w, h): start from the full-image rectangle (0, 0, w−1, h−1), distort
it, compute the IoU of old vs new rectangle, and crop. Returns the iou and
the cropped image's size. -/
def distort_image (w h : ℤ) (dx dy : ℚ) : ℚ × ℤ × ℤ :=
  let x1 : ℚ := 0
  let y1 : ℚ := 0
  let x2 : ℚ := (w : ℚ) - 1
  let y2 : ℚ := (h : ℚ) - 1
  let old_bbox : Rect := ⟨x1, y1, x2, y2⟩
  let r := distort x1 y1 x2 y2 dx dy
  let new_bbox : Rect := ⟨(r.1 : ℚ), (r.2.1 : ℚ), (r.2.2.1 : ℚ), (r.2.2.2 : ℚ)⟩
  (iou old_bbox new_bbox, crop r.1 r.2.1 r.2.2.1 r.2.2.2)

lemma distort_image_eq (w h : ℤ) (dx dy : ℚ) :
    distort_image w h dx dy =
      (iou ⟨0, 0, (w:ℚ) - 1, (h:ℚ) - 1⟩
           ⟨(pyint (max 0 dx) : ℚ), (pyint (max 0 dy) : ℚ),
            (pyint (min ((w:ℚ) - 1) ((w:ℚ) - 1 + dx)) : ℚ),
            (pyint (min ((h:ℚ) - 1) ((h:ℚ) - 1 + dy)) : ℚ)⟩,
       pyint (min ((w:ℚ) - 1) ((w:ℚ) - 1 + dx)) - pyint (max 0 dx),
       pyint (min ((h:ℚ) - 1) ((h:ℚ) - 1 + dy)) - pyint (max 0 dy)) := by
  unfold distort_image distort crop
  norm_num

lemma distort_axis (W : ℤ) (hW : 0 ≤ W) (d : ℚ) (hd : |d| ≤ 6/10 * (W:ℚ)) :
    0 ≤ pyint (max 0 d) ∧
    pyint (max 0 d) ≤ pyint (min ((W:ℤ):ℚ) (((W:ℤ):ℚ) + d)) ∧
    pyint (min ((W:ℤ):ℚ) (((W:ℤ):ℚ) + d)) ≤ W := by
  have hWQ : (0:ℚ) ≤ ((W:ℤ):ℚ) := by exact_mod_cast hW
  obtain ⟨hd1, hd2⟩ := abs_le.mp hd
  refine ⟨pyint_nonneg (le_max_left _ _), ?_, ?_⟩
  · rcases le_or_lt d 0 with hneg | hpos
    · rw [max_eq_left hneg]
      have h0 : (0:ℚ) ≤ min ((W:ℤ):ℚ) (((W:ℤ):ℚ) + d) := le_min hWQ (by linarith)
      have hz : pyint 0 = 0 := by
        rw [show ((0:ℚ)) = ((0:ℤ):ℚ) by norm_num, pyint_intCast]
      rw [hz]
      exact pyint_nonneg h0
    · rw [max_eq_right (le_of_lt hpos), min_eq_left (by linarith)]
      exact pyint_mono (by linarith)
  · calc pyint (min ((W:ℤ):ℚ) (((W:ℤ):ℚ) + d)) ≤ pyint ((W:ℤ):ℚ) :=
        pyint_mono (min_le_left _ _)
    _ = W := pyint_intCast W

/-- Claim C6: for an image of positive size and any displacement outcome
within the sampler\x27s bounds, `distort_image` returns an iou in [0,1] and a
cropped image whose width and height are each ≥ 0 and at most the original
image\x27s corresponding dimension. -/
theorem claim_C6 (w h : ℤ) (hw : 1 ≤ w) (hh : 1 ≤ h) (dx dy : ℚ)
    (hdx : |dx| ≤ 6/10 * ((w:ℚ) - 1)) (hdy : |dy| ≤ 6/10 * ((h:ℚ) - 1)) :
    0 ≤ (distort_image w h dx dy).1 ∧ (distort_image w h dx dy).1 ≤ 1 ∧
    0 ≤ (distort_image w h dx dy).2.1 ∧ (distort_image w h dx dy).2.1 ≤ w ∧
    0 ≤ (distort_image w h dx dy).2.2 ∧ (distort_image w h dx dy).2.2 ≤ h := by
  have hwx : ((w - 1 : ℤ) : ℚ) = (w:ℚ) - 1 := by push_cast; ring
  have hhx : ((h - 1 : ℤ) : ℚ) = (h:ℚ) - 1 := by push_cast; ring
  have hax := distort_axis (w - 1) (by omega) dx (by rw [hwx]; exact hdx)
  have hay := distort_axis (h - 1) (by omega) dy (by rw [hhx]; exact hdy)
  rw [hwx] at hax
  rw [hhx] at hay
  obtain ⟨hx0, hx1, hx2⟩ := hax
  obtain ⟨hy0, hy1, hy2⟩ := hay
  rw [distort_image_eq]
  have hwf_old : Rect.Wf ⟨0, 0, (w:ℚ) - 1, (h:ℚ) - 1⟩ := by
    constructor
    · show (0:ℚ) ≤ (w:ℚ) - 1
      have : (1:ℚ) ≤ (w:ℚ) := by exact_mod_cast hw
      linarith
    · show (0:ℚ) ≤ (h:ℚ) - 1
      have : (1:ℚ) ≤ (h:ℚ) := by exact_mod_cast hh
      linarith
  have hwf_new : Rect.Wf ⟨(pyint (max 0 dx) : ℚ), (pyint (max 0 dy) : ℚ),
      (pyint (min ((w:ℚ) - 1) ((w:ℚ) - 1 + dx)) : ℚ),
      (pyint (min ((h:ℚ) - 1) ((h:ℚ) - 1 + dy)) : ℚ)⟩ := by
    constructor
    · show ((pyint (max 0 dx) : ℚ)) ≤ ((pyint (min ((w:ℚ) - 1) ((w:ℚ) - 1 + dx)) : ℚ))
      exact_mod_cast hx1
    · show ((pyint (max 0 dy) : ℚ)) ≤ ((pyint (min ((h:ℚ) - 1) ((h:ℚ) - 1 + dy)) : ℚ))
      exact_mod_cast hy1
  refine ⟨iou_nonneg _ _ hwf_old hwf_new, iou_le_one _ _ hwf_old hwf_new, ?_, ?_, ?_, ?_⟩
  · show 0 ≤ pyint (min ((w:ℚ) - 1) ((w:ℚ) - 1 + dx)) - pyint (max 0 dx)
    omega
  · show pyint (min ((w:ℚ) - 1) ((w:ℚ) - 1 + dx)) - pyint (max 0 dx) ≤ w
    omega
  · show 0 ≤ pyint (min ((h:ℚ) - 1) ((h:ℚ) - 1 + dy)) - pyint (max 0 dy)
    omega
  · show pyint (min ((h:ℚ) - 1) ((h:ℚ) - 1 + dy)) - pyint (max 0 dy) ≤ h
    omega

/-- Witness for C6 on a 100 × 100 image with dx = 30.5, dy = −59.4,
both within the sampler's bound 0.6·99 = 59.4. -/
theorem claim_C6_witness :
    0 ≤ (distort_image 100 100 (61/2) (-297/5)).1 ∧
    (distort_image 100 100 (61/2) (-297/5)).1 ≤ 1 ∧
    0 ≤ (distort_image 100 100 (61/2) (-297/5)).2.1 ∧
    (distort_image 100 100 (61/2) (-297/5)).2.1 ≤ 100 ∧
    0 ≤ (distort_image 100 100 (61/2) (-297/5)).2.2 ∧
    (distort_image 100 100 (61/2) (-297/5)).2.2 ≤ 100 :=
  claim_C6 100 100 (by norm_num) (by norm_num) (61/2) (-297/5)
    (by rw [abs_of_pos] <;> norm_num) (by rw [abs_of_neg] <;> norm_num)

/-- Failure modes in the embedding: `indexError` models Python's IndexError
raised by subscripting an empty list; `emptyInputError` is the dedicated
precondition error named by the spec (never raised by the source). -/
inductive PyErr where
  | indexError : PyErr
  | emptyInputError : PyErr
deriving DecidableEq, Repr

/-- The loop of `find_closest_iou` (code.py lines 68-71): `pos` is the index
in the full candidate list of the head of `cs` (the code's `idx + 1`); the
running best `(last_i, last_iou)` is replaced only on strictly greater iou. -/
def fcLoop (b1 : Rect) : ℕ → ℕ × ℚ → List Rect → ℕ × ℚ
  | _, st, [] => st
  | pos, st, c :: cs =>
      let new_iou := iou b1 c
      fcLoop b1 (pos + 1) (if st.2 < new_iou then (pos, new_iou) else st) cs

/-- Embedding of `find_closest_iou(b1, contenders)` (code.py lines 66-72):
`contenders[0]` raises IndexError on an empty list; otherwise the loop scans
`contenders[1:]` starting from best `(0, iou(b1, contenders[0]))`. -/
def find_closest_iou (b1 : Rect) : List Rect → Except PyErr (ℕ × ℚ)
  | [] => Except.error PyErr.indexError
  | c :: cs => Except.ok (fcLoop b1 1 (0, iou b1 c) cs)

lemma fcLoop_cons (b1 : Rect) (pos : ℕ) (st : ℕ × ℚ) (c : Rect) (cs : List Rect) :
    fcLoop b1 pos st (c :: cs) =
      fcLoop b1 (pos + 1) (if st.2 < iou b1 c then (pos, iou b1 c) else st) cs := rfl

lemma fcLoop_spec (b1 : Rect) (cs : List Rect) : ∀ (pos li : ℕ) (lv : ℚ),
    lv ≤ (fcLoop b1 pos (li, lv) cs).2 ∧
    (∀ c ∈ cs, iou b1 c ≤ (fcLoop b1 pos (li, lv) cs).2) ∧
    (fcLoop b1 pos (li, lv) cs = (li, lv) ∨
      ∃ j, j < cs.length ∧ (fcLoop b1 pos (li, lv) cs).1 = pos + j ∧
        (fcLoop b1 pos (li, lv) cs).2 = iou b1 (cs.getD j ⟨0, 0, 0, 0⟩) ∧
        lv < (fcLoop b1 pos (li, lv) cs).2 ∧
        ∀ j2, j2 < j → iou b1 (cs.getD j2 ⟨0, 0, 0, 0⟩) < (fcLoop b1 pos (li, lv) cs).2) := by
  induction cs with
  | nil =>
      intro pos li lv
      refine ⟨le_refl _, by simp, Or.inl rfl⟩
  | cons c cs ih =>
      intro pos li lv
      rw [fcLoop_cons]
      dsimp only
      by_cases hlt : lv < iou b1 c
      · rw [if_pos hlt]
        obtain ⟨ih1, ih2, ih3⟩ := ih (pos + 1) pos (iou b1 c)
        refine ⟨le_trans (le_of_lt hlt) ih1, ?_, ?_⟩
        · intro c2 hc2
          rcases List.mem_cons.mp hc2 with rfl | hmem
          · exact ih1
          · exact ih2 c2 hmem
        · rcases ih3 with heq | ⟨j, hj, hidx, hval, hgt, hprev⟩
          · right
            refine ⟨0, by simp, ?_, ?_, ?_, ?_⟩
            · rw [heq]
              simp
            · rw [heq]
              simp [List.getD]
            · rw [heq]
              exact hlt
            · intro j2 hj2
              exact absurd hj2 (Nat.not_lt_zero _)
          · right
            refine ⟨j + 1, by simp; omega, ?_, ?_, lt_trans hlt hgt, ?_⟩
            · rw [hidx]
              omega
            · rw [hval]
              simp
            · intro j2 hj2
              cases j2 with
              | zero =>
                  simpa using hgt
              | succ j3 =>
                  simpa using hprev j3 (by omega)
      · rw [if_neg hlt]
        push_neg at hlt
        obtain ⟨ih1, ih2, ih3⟩ := ih (pos + 1) li lv
        refine ⟨ih1, ?_, ?_⟩
        · intro c2 hc2
          rcases List.mem_cons.mp hc2 with rfl | hmem
          · exact le_trans hlt ih1
          · exact ih2 c2 hmem
        · rcases ih3 with heq | ⟨j, hj, hidx, hval, hgt, hprev⟩
          · exact Or.inl heq
          · right
            refine ⟨j + 1, by simp; omega, ?_, ?_, hgt, ?_⟩
            · rw [hidx]
              omega
            · rw [hval]
              simp
            · intro j2 hj2
              cases j2 with
              | zero =>
                  simpa using lt_of_le_of_lt hlt hgt
              | succ j3 =>
                  simpa using hprev j3 (by omega)

/-- Claim C7: on a non-empty candidate list, `find_closest_iou` returns
(index, iou) where iou is the maximum of iou(target, c) over all candidates,
index is the smallest index attaining it (strictly-greater updates only),
and the returned iou is iou(target, candidates[index]); a single-element
list thus yields index 0 with iou(target, candidates[0]). -/
theorem claim_C7 (b1 : Rect) (l : List Rect) (hne : l ≠ []) :
    ∃ i v, find_closest_iou b1 l = Except.ok (i, v) ∧
      i < l.length ∧
      v = iou b1 (l.getD i ⟨0, 0, 0, 0⟩) ∧
      (∀ j, j < l.length → iou b1 (l.getD j ⟨0, 0, 0, 0⟩) ≤ v) ∧
      (∀ j, j < i → iou b1 (l.getD j ⟨0, 0, 0, 0⟩) < v) := by
  cases l with
  | nil => exact absurd rfl hne
  | cons c cs =>
    obtain ⟨h1, h2, h3⟩ := fcLoop_spec b1 cs 1 0 (iou b1 c)
    refine ⟨(fcLoop b1 1 (0, iou b1 c) cs).1, (fcLoop b1 1 (0, iou b1 c) cs).2,
      rfl, ?_, ?_, ?_, ?_⟩
    · rcases h3 with heq | ⟨j, hj, hidx, _⟩
      · rw [heq]
        simp
      · rw [hidx]
        simp
        omega
    · rcases h3 with heq | ⟨j, hj, hidx, hval, _⟩
      · rw [heq]
        simp [List.getD]
      · have hidx2 : (fcLoop b1 1 (0, iou b1 c) cs).1 = j + 1 := by omega
        rw [hidx2, hval]
        simp
    · intro j hjlen
      cases j with
      | zero => simpa using h1
      | succ j2 =>
          have hj2 : j2 < cs.length := by simpa using hjlen
          have hmem : cs.getD j2 ⟨0, 0, 0, 0⟩ ∈ cs := by
            rw [List.getD_eq_getElem cs _ hj2]
            exact List.getElem_mem hj2
          simpa using h2 _ hmem
    · intro j hji
      rcases h3 with heq | ⟨j0, hj0, hidx, hval, hgt, hprev⟩
      · rw [heq] at hji
        exact absurd hji (Nat.not_lt_zero _)
      · rw [hidx] at hji
        cases j with
        | zero => simpa using hgt
        | succ j2 =>
            simpa using hprev j2 (by omega)

/-- Witness for C7 on a concrete two-candidate list where the second
candidate has the larger overlap with the target. -/
theorem claim_C7_witness :
    ∃ i v, find_closest_iou ⟨0, 0, 4, 4⟩ [⟨3, 3, 5, 5⟩, ⟨0, 0, 4, 4⟩] = Except.ok (i, v) ∧
      i < 2 ∧
      v = iou ⟨0, 0, 4, 4⟩ ([⟨3, 3, 5, 5⟩, ⟨0, 0, 4, 4⟩].getD i ⟨0, 0, 0, 0⟩) ∧
      (∀ j, j < 2 → iou ⟨0, 0, 4, 4⟩ ([⟨3, 3, 5, 5⟩, ⟨0, 0, 4, 4⟩].getD j ⟨0, 0, 0, 0⟩) ≤ v) ∧
      (∀ j, j < i → iou ⟨0, 0, 4, 4⟩ ([⟨3, 3, 5, 5⟩, ⟨0, 0, 4, 4⟩].getD j ⟨0, 0, 0, 0⟩) < v) :=
  claim_C7 ⟨0, 0, 4, 4⟩ [⟨3, 3, 5, 5⟩, ⟨0, 0, 4, 4⟩] (by simp)

/-- Claim C8 counterexample: on an empty candidate list the source raises
the incidental IndexError from evaluating `contenders[0]` — there is no
explicit precondition check, so no dedicated EmptyInputError is raised. -/
theorem claim_C8_counterexample :
    find_closest_iou ⟨0, 0, 1, 1⟩ [] ≠ Except.error PyErr.emptyInputError ∧
    find_closest_iou ⟨0, 0, 1, 1⟩ [] = Except.error PyErr.indexError := by
  refine ⟨?_, rfl⟩
  intro h
  exact PyErr.noConfusion (Except.error.inj h)

/-- Claim C8 amended: `find_closest_iou` on an empty candidate list does
fail, but with the incidental IndexError from indexing the empty sequence,
not with a dedicated EmptyInputError from an explicit precondition check. -/
theorem claim_C8_amended (b : Rect) :
    find_closest_iou b [] = Except.error PyErr.indexError := rfl

/-- One dataset entry as the loop body of `main` sees it: the ground-truth
label (`cls_dir`, the directory name), the iou that `distort_image` returned
for this image, and the outcome of `classifier.classify(img).class_` —
either the predicted label or the exception message the `except` block
catches. -/
structure Entry where
  label : String
  iouVal : ℚ
  cls : Except String String

/-- `true` iff classification succeeded (no exception was raised). -/
def clsOk : Except String String → Bool
  | Except.ok _ => true
  | Except.error _ => false

/-- The two bucket dictionaries of `main`: `d` counts correct predictions
and `d_not` incorrect ones (code.py lines 106-107). -/
structure MainState where
  d : List (ℕ × ℕ)
  d_not : List (ℕ × ℕ)
deriving DecidableEq, Repr

/-- The dict literal `{2: 0, 3: 0, ..., 10: 0}`. -/
def initDict : List (ℕ × ℕ) :=
  [(2, 0), (3, 0), (4, 0), (5, 0), (6, 0), (7, 0), (8, 0), (9, 0), (10, 0)]

/-- Both dictionaries at the start of `main`. -/
def initState : MainState := ⟨initDict, initDict⟩

/-- Keys of a dict, in insertion order. -/
def dictKeys (d : List (ℕ × ℕ)) : List ℕ := d.map Prod.fst

/-- Value stored at key k (0 when absent; in every reachable state the nine
bucket keys are present). -/
def dictGet (d : List (ℕ × ℕ)) (k : ℕ) : ℕ :=
  ((d.find? (fun p => p.1 == k)).map Prod.snd).getD 0

/-- Python `d[k] += v`: raises KeyError (`none`) when k is not a key of d,
otherwise adds v to the value stored at k. -/
def dictIncr (d : List (ℕ × ℕ)) (k : ℕ) (v : ℕ) : Option (List (ℕ × ℕ)) :=
  if k ∈ dictKeys d then
    some (d.map (fun p => if p.1 = k then (p.1, p.2 + v) else p))
  else none

/-- Loop body of `main` for one image (code.py lines 111-149): on a
classification error, log and `continue` (state unchanged); on success,
the bucket selected by the iou gets `pred == cls_dir` added to its correct
counter and `pred != cls_dir` added to its incorrect counter. -/
def stepImage (st : MainState) (e : Entry) : Option MainState :=
  match e.cls with
  | Except.error _ => some st
  | Except.ok pred =>
      let b := bucket e.iouVal
      match dictIncr st.d b (if pred = e.label then 1 else 0) with
      | none => none
      | some d2 =>
          match dictIncr st.d_not b (if pred = e.label then 0 else 1) with
          | none => none
          | some dn2 => some ⟨d2, dn2⟩

/-- The whole dataset loop of `main` (code.py lines 109-152), abstracted
over the per-image data. -/
def runMain (entries : List Entry) : Option MainState :=
  List.foldlM stepImage initState entries

/-- Total of both counters over all buckets. -/
def sumState (st : MainState) : ℕ :=
  (st.d.map Prod.snd).sum + (st.d_not.map Prod.snd).sum

/-- Number of entries whose classification succeeded. -/
def countOk (entries : List Entry) : ℕ :=
  (entries.filter (fun e => clsOk e.cls)).length

/-- Both dictionaries hold exactly the nine bucket keys. -/
def KeysInv (st : MainState) : Prop :=
  dictKeys st.d = bucketKeys ∧ dictKeys st.d_not = bucketKeys

/-- Per-image effect of a successful classification: exactly one counter of
exactly one bucket (the one selected by the iou) goes up by one, every other
counter is unchanged. -/
def StepSpec (st st2 : MainState) (e : Entry) (pred : String) : Prop :=
  (pred = e.label →
     dictGet st2.d (bucket e.iouVal) = dictGet st.d (bucket e.iouVal) + 1 ∧
     dictGet st2.d_not (bucket e.iouVal) = dictGet st.d_not (bucket e.iouVal)) ∧
  (pred ≠ e.label →
     dictGet st2.d (bucket e.iouVal) = dictGet st.d (bucket e.iouVal) ∧
     dictGet st2.d_not (bucket e.iouVal) = dictGet st.d_not (bucket e.iouVal) + 1) ∧
  (∀ k, k ≠ bucket e.iouVal →
     dictGet st2.d k = dictGet st.d k ∧ dictGet st2.d_not k = dictGet st.d_not k)

lemma bucket_mem (q : ℚ) : bucket q ∈ bucketKeys := by
  unfold bucket bucketKeys
  split_ifs <;> simp

lemma count_bucketKeys {k : ℕ} (h : k ∈ bucketKeys) : bucketKeys.count k = 1 := by
  fin_cases h <;> rfl

lemma upd_keys (d : List (ℕ × ℕ)) (k : ℕ) (v : ℕ) :
    dictKeys (d.map (fun p => if p.1 = k then (p.1, p.2 + v) else p)) = dictKeys d := by
  unfold dictKeys
  rw [List.map_map]
  apply List.map_congr_left
  intro p _
  by_cases hp : p.1 = k <;> simp [hp]

lemma upd_of_not_mem (d : List (ℕ × ℕ)) (k : ℕ) (v : ℕ) (h : k ∉ dictKeys d) :
    d.map (fun p => if p.1 = k then (p.1, p.2 + v) else p) = d := by
  induction d with
  | nil => rfl
  | cons p d ih =>
      simp only [dictKeys, List.map_cons, List.mem_cons] at h
      push_neg at h
      simp only [List.map_cons]
      rw [if_neg (fun hc => h.1 hc.symm), ih h.2]

lemma sum_upd (d : List (ℕ × ℕ)) (k : ℕ) (v : ℕ) (h : (dictKeys d).count k = 1) :
    ((d.map (fun p => if p.1 = k then (p.1, p.2 + v) else p)).map Prod.snd).sum
      = (d.map Prod.snd).sum + v := by
  induction d with
  | nil => simp [dictKeys] at h
  | cons p d ih =>
      by_cases hp : p.1 = k
      · have hstep : (dictKeys (p :: d)).count k = (dictKeys d).count k + 1 := by
          simp [dictKeys, List.count_cons, hp]
        have hcount : (dictKeys d).count k = 0 := by omega
        have hnot : k ∉ dictKeys d := List.count_eq_zero.mp hcount
        simp only [List.map_cons]
        rw [if_pos hp, upd_of_not_mem d k v hnot]
        simp only [List.map_cons, List.sum_cons]
        omega
      · have hstep : (dictKeys (p :: d)).count k = (dictKeys d).count k := by
          simp [dictKeys, List.count_cons, hp, fun hc : k = p.1 => hp hc.symm]
        have hcount : (dictKeys d).count k = 1 := by omega
        simp only [List.map_cons]
        rw [if_neg hp]
        simp only [List.map_cons, List.sum_cons]
        rw [ih hcount]
        omega

lemma dictGet_cons (p : ℕ × ℕ) (d : List (ℕ × ℕ)) (k : ℕ) :
    dictGet (p :: d) k = if p.1 = k then p.2 else dictGet d k := by
  unfold dictGet
  by_cases hp : p.1 = k
  · rw [List.find?_cons_of_pos _ (by simp [hp]), if_pos hp]
    rfl
  · rw [List.find?_cons_of_neg _ (by simp [hp]), if_neg hp]

lemma dictGet_upd_self (d : List (ℕ × ℕ)) (k v : ℕ) (h : k ∈ dictKeys d) :
    dictGet (d.map (fun p => if p.1 = k then (p.1, p.2 + v) else p)) k
      = dictGet d k + v := by
  induction d with
  | nil => simp [dictKeys] at h
  | cons p d ih =>
      simp only [List.map_cons]
      by_cases hp : p.1 = k
      · rw [if_pos hp, dictGet_cons, dictGet_cons]
        dsimp only
        rw [if_pos hp, if_pos hp]
      · rw [if_neg hp, dictGet_cons, dictGet_cons]
        rw [if_neg hp, if_neg hp]
        apply ih
        rcases List.mem_cons.mp (show k ∈ p.1 :: dictKeys d from h) with heq | hmem
        · exact absurd heq.symm hp
        · exact hmem

lemma dictGet_upd_other (d : List (ℕ × ℕ)) (k k2 v : ℕ) (hne : k2 ≠ k) :
    dictGet (d.map (fun p => if p.1 = k then (p.1, p.2 + v) else p)) k2
      = dictGet d k2 := by
  induction d with
  | nil => rfl
  | cons p d ih =>
      simp only [List.map_cons]
      by_cases hp : p.1 = k
      · have hne2 : ¬ p.1 = k2 := by
          rw [hp]
          exact fun hc => hne hc.symm
        rw [if_pos hp, dictGet_cons, dictGet_cons]
        dsimp only
        rw [if_neg hne2, if_neg hne2]
        exact ih
      · rw [if_neg hp, dictGet_cons, dictGet_cons]
        by_cases hk2 : p.1 = k2
        · rw [if_pos hk2, if_pos hk2]
        · rw [if_neg hk2, if_neg hk2]
          exact ih

lemma stepImage_err (st : MainState) (e : Entry) (h : clsOk e.cls = false) :
    stepImage st e = some st := by
  cases he : e.cls with
  | error msg => simp [stepImage, he]
  | ok pred =>
      rw [he] at h
      simp [clsOk] at h

lemma stepImage_ok (st : MainState) (e : Entry) (pred : String)
    (hInv : KeysInv st) (he : e.cls = Except.ok pred) :
    ∃ st2, stepImage st e = some st2 ∧ KeysInv st2 ∧
      sumState st2 = sumState st + 1 ∧ StepSpec st st2 e pred := by
  obtain ⟨hd, hdn⟩ := hInv
  have hb : bucket e.iouVal ∈ bucketKeys := bucket_mem _
  have hbd : bucket e.iouVal ∈ dictKeys st.d := by rw [hd]; exact hb
  have hbdn : bucket e.iouVal ∈ dictKeys st.d_not := by rw [hdn]; exact hb
  have hcd : (dictKeys st.d).count (bucket e.iouVal) = 1 := by
    rw [hd]; exact count_bucketKeys hb
  have hcdn : (dictKeys st.d_not).count (bucket e.iouVal) = 1 := by
    rw [hdn]; exact count_bucketKeys hb
  have hv : (if pred = e.label then 1 else 0) + (if pred = e.label then 0 else 1) = 1 := by
    by_cases hpe : pred = e.label <;> simp [hpe]
  refine ⟨⟨st.d.map (fun p =>
      if p.1 = bucket e.iouVal then (p.1, p.2 + (if pred = e.label then 1 else 0)) else p),
    st.d_not.map (fun p =>
      if p.1 = bucket e.iouVal then (p.1, p.2 + (if pred = e.label then 0 else 1)) else p)⟩,
    ?_, ⟨?_, ?_⟩, ?_, ?_, ?_, ?_⟩
  · simp [stepImage, he, dictIncr, hbd, hbdn]
  · show dictKeys (st.d.map _) = bucketKeys
    rw [upd_keys]
    exact hd
  · show dictKeys (st.d_not.map _) = bucketKeys
    rw [upd_keys]
    exact hdn
  · show (List.map Prod.snd (st.d.map _)).sum + (List.map Prod.snd (st.d_not.map _)).sum
      = sumState st + 1
    rw [sum_upd _ _ _ hcd, sum_upd _ _ _ hcdn]
    unfold sumState
    omega
  · intro hpe
    constructor
    · show dictGet (st.d.map _) (bucket e.iouVal) = _
      rw [dictGet_upd_self _ _ _ hbd]
      simp [hpe]
    · show dictGet (st.d_not.map _) (bucket e.iouVal) = _
      rw [dictGet_upd_self _ _ _ hbdn]
      simp [hpe]
  · intro hpe
    constructor
    · show dictGet (st.d.map _) (bucket e.iouVal) = _
      rw [dictGet_upd_self _ _ _ hbd]
      simp [hpe]
    · show dictGet (st.d_not.map _) (bucket e.iouVal) = _
      rw [dictGet_upd_self _ _ _ hbdn]
      simp [hpe]
  · intro k hk
    constructor
    · show dictGet (st.d.map _) k = _
      exact dictGet_upd_other _ _ _ _ hk
    · show dictGet (st.d_not.map _) k = _
      exact dictGet_upd_other _ _ _ _ hk

lemma runAux (entries : List Entry) : ∀ st0, KeysInv st0 →
    ∃ st, List.foldlM stepImage st0 entries = some st ∧ KeysInv st ∧
      sumState st = sumState st0 + countOk entries := by
  induction entries with
  | nil =>
      intro st0 h
      exact ⟨st0, rfl, h, by simp [countOk]⟩
  | cons e es ih =>
      intro st0 h0
      cases he : e.cls with
      | error msg =>
          obtain ⟨st, hrun, hInv, hsum⟩ := ih st0 h0
          refine ⟨st, ?_, hInv, ?_⟩
          · rw [List.foldlM_cons, stepImage_err st0 e (by rw [he]; rfl)]
            exact hrun
          · rw [hsum]
            have hco : countOk (e :: es) = countOk es := by
              simp [countOk, List.filter_cons, clsOk, he]
            rw [hco]
      | ok pred =>
          obtain ⟨st1, hstep, hInv1, hsum1, _⟩ := stepImage_ok st0 e pred h0 he
          obtain ⟨st, hrun, hInv, hsum⟩ := ih st1 hInv1
          refine ⟨st, ?_, hInv, ?_⟩
          · rw [List.foldlM_cons, hstep]
            exact hrun
          · rw [hsum, hsum1]
            have hco : countOk (e :: es) = countOk es + 1 := by
              simp [countOk, List.filter_cons, clsOk, he]
            rw [hco]
            omega

lemma runErrAux (entries : List Entry) (h : ∀ e ∈ entries, clsOk e.cls = false) :
    ∀ st0, List.foldlM stepImage st0 entries = some st0 := by
  induction entries with
  | nil =>
      intro st0
      rfl
  | cons e es ih =>
      intro st0
      rw [List.foldlM_cons, stepImage_err st0 e (h e (List.mem_cons_self e es))]
      exact ih (fun e2 he2 => h e2 (List.mem_cons_of_mem e he2)) st0

/-- Claim C1: in every run, a classification error skips the image (the
state is unchanged and the loop continues); a successful classification
increments exactly one counter in exactly one bucket (correct on exact
string match of prediction against the directory name, incorrect
otherwise); hence at end of run the sum of correct+incorrect over all
buckets equals the number of successfully classified images, and a run in
which every classification raises completes with all counters at their
initial zeros. -/
theorem claim_C1 :
    (∀ st e, clsOk e.cls = false → stepImage st e = some st) ∧
    (∀ st e pred, KeysInv st → e.cls = Except.ok pred →
      ∃ st2, stepImage st e = some st2 ∧ StepSpec st st2 e pred) ∧
    (∀ entries, ∃ st, runMain entries = some st ∧ sumState st = countOk entries) ∧
    (∀ entries, (∀ e ∈ entries, clsOk e.cls = false) → runMain entries = some initState) := by
  refine ⟨stepImage_err, ?_, ?_, ?_⟩
  · intro st e pred hInv he
    obtain ⟨st2, hstep, _, _, hspec⟩ := stepImage_ok st e pred hInv he
    exact ⟨st2, hstep, hspec⟩
  · intro entries
    obtain ⟨st, hrun, _, hsum⟩ := runAux entries initState ⟨rfl, rfl⟩
    refine ⟨st, hrun, ?_⟩
    rw [hsum]
    have h0 : sumState initState = 0 := rfl
    omega
  · intro entries h
    exact runErrAux entries h initState

/-- Witness for C1: an erroring entry is skipped; a correct prediction on a
fresh state satisfies the one-increment step property; a mixed two-entry run
ends with total counters equal to its one success; an all-error run ends in
the initial all-zero state. -/
theorem claim_C1_witness :
    stepImage initState ⟨"a", 0, Except.error "boom"⟩ = some initState ∧
    (∃ st2, stepImage initState ⟨"b", 1, Except.ok "b"⟩ = some st2 ∧
       StepSpec initState st2 ⟨"b", 1, Except.ok "b"⟩ "b") ∧
    (∃ st, runMain [⟨"a", 0, Except.error "boom"⟩, ⟨"b", 1, Except.ok "b"⟩] = some st ∧
       sumState st = countOk [⟨"a", 0, Except.error "boom"⟩, ⟨"b", 1, Except.ok "b"⟩]) ∧
    runMain [⟨"a", 0, Except.error "boom"⟩] = some initState :=
  ⟨claim_C1.1 initState ⟨"a", 0, Except.error "boom"⟩ rfl,
   claim_C1.2.1 initState ⟨"b", 1, Except.ok "b"⟩ "b" ⟨rfl, rfl⟩ rfl,
   claim_C1.2.2.1 [⟨"a", 0, Except.error "boom"⟩, ⟨"b", 1, Except.ok "b"⟩],
   claim_C1.2.2.2 [⟨"a", 0, Except.error "boom"⟩] (by
     intro e he
     rw [List.mem_singleton] at he
     subst he
     rfl)⟩

/-- Claim C10: both counter dictionaries are initialized with exactly the
nine keys 2..10, each at 0; no run operation ever adds or removes a key, so
every end-of-run report has exactly these nine buckets, and a run over an
empty dataset reports the initial all-zero state. -/
theorem claim_C10 :
    (dictKeys initState.d = bucketKeys ∧ dictKeys initState.d_not = bucketKeys) ∧
    (∀ k ∈ bucketKeys, dictGet initState.d k = 0 ∧ dictGet initState.d_not k = 0) ∧
    (∀ entries st, runMain entries = some st →
       dictKeys st.d = bucketKeys ∧ dictKeys st.d_not = bucketKeys) ∧
    runMain [] = some initState := by
  refine ⟨⟨rfl, rfl⟩, ?_, ?_, rfl⟩
  · intro k hk
    fin_cases hk <;> exact ⟨rfl, rfl⟩
  · intro entries st hrun
    obtain ⟨st2, hrun2, hInv, _⟩ := runAux entries initState ⟨rfl, rfl⟩
    have heq : st = st2 := by
      have h2 : some st = some st2 := by
        rw [← hrun, ← hrun2]
        rfl
      exact Option.some.inj h2
    rw [heq]
    exact hInv

/-- Witness for C10: key 5 starts at 0 in both dicts, and a concrete
one-entry run still has exactly the nine bucket keys. -/
theorem claim_C10_witness :
    (dictGet initState.d 5 = 0 ∧ dictGet initState.d_not 5 = 0) ∧
    (dictKeys initState.d = bucketKeys ∧ dictKeys initState.d_not = bucketKeys) :=
  ⟨claim_C10.2.1 5 (by decide),
   claim_C10.2.2.1 [⟨"a", 0, Except.error "boom2"⟩] initState (by rfl)⟩
